import Mathlib

/-!
Verification of the Domineering alpha-beta search engine (`Searcher.cpp`) and its
evaluator pipeline (`Evaluators.h`).

The definitions below are a shallow embedding of the C++ sources.  `Searcher.cpp`
is translated function by function (`search`, `search_under`, `expand`, `tap`,
`untap`, `evaluate`, `move_order`), with the per-child loop of `search_under`
factored into the explicit tail-recursive `su_loop` and the mutable
`best_moves` / `ordered_moves` members threaded as explicit values.  The board
class `DomineeringState`, the move record `Node` and the window `AlphaBeta` are
declared but not defined in the sources; their members are modelled from the
spec where noted.  C++ `std::thread` scheduling is not modelled: the background
re-sort task, which the next call must join before touching the cache, is
applied at the end of `search` (the state observed by any later call under the
mandatory-join discipline).
-/

/-- The two sides.  Home places horizontal dominoes, Away vertical ones. -/
inductive Who
  | home
  | away
deriving DecidableEq, Repr

/-- The opposite side (the `team == Who::HOME ? Who::AWAY : Who::HOME` idiom). -/
def Who.other : Who → Who
  | .home => .away
  | .away => .home

/-- Board cell contents: `EMPTYSYM`, `HOMESYM`, `AWAYSYM` and the evaluator's
temporary `MARKEDSYM`. -/
inductive Cell
  | empty
  | home
  | away
  | marked
deriving DecidableEq, Repr

/-- The board symbol of a side. -/
def Who.cell : Who → Cell
  | .home => Cell.home
  | .away => Cell.away

/-- The two board cells of a placement (`Location` / `DomineeringMove`:
four coordinates `r1 c1 r2 c2`). -/
structure Location where
  r1 : Nat
  c1 : Nat
  r2 : Nat
  c2 : Nat
deriving DecidableEq, Repr

/-- Modelled from the spec: the `DomineeringState` board class is not under
`src/`.  Per the spec's Position interface it holds the cell grid (row-major),
the `ROWS`/`COLS` constants and the side to move; cells are read and written
through `getCell`/`setCell` and the active player is flipped by
`togglePlayer`. -/
structure DomineeringState where
  rows : Nat
  cols : Nat
  board : List Cell
  cur : Who
deriving DecidableEq, Repr

abbrev DS := DomineeringState

/-- Row-major index of a cell. -/
def DomineeringState.idx (st : DS) (r c : Nat) : Nat := r * st.cols + c

/-- Modelled from the spec: `getCell` of the Position interface (cell read). -/
def DomineeringState.getCell (st : DS) (r c : Nat) : Cell :=
  st.board.getD (st.idx r c) Cell.empty

/-- Modelled from the spec: `setCell` of the Position interface (cell write). -/
def DomineeringState.setCell (st : DS) (r c : Nat) (x : Cell) : DS :=
  { st with board := st.board.set (st.idx r c) x }

/-- Modelled from the spec: `togglePlayer` of the Position interface
(active-player toggle). -/
def DomineeringState.togglePlayer (st : DS) : DS :=
  { st with cur := st.cur.other }

/-- Modelled from the spec: `DomineeringState::moveOK`, the Position's legality
check, is not under `src/`.  A candidate placement is legal when both of its
cells are on the board and empty and the pair is the current player's fixed
orientation: Home places horizontally, Away vertically. -/
def DomineeringState.moveOK (st : DS) (m : Location) : Bool :=
  let orient :=
    match st.cur with
    | .home => decide (m.r2 = m.r1) && decide (m.c2 = m.c1 + 1)
    | .away => decide (m.r2 = m.r1 + 1) && decide (m.c2 = m.c1)
  orient
    && decide (m.r1 < st.rows) && decide (m.c1 < st.cols)
    && decide (m.r2 < st.rows) && decide (m.c2 < st.cols)
    && decide (st.getCell m.r1 m.c1 = Cell.empty)
    && decide (st.getCell m.r2 m.c2 = Cell.empty)

/-- Sentinel bounding all real scores (`AlphaBeta::POS_INF`; the concrete
value is private to the missing header, any bound on real scores works). -/
def POS_INF : Int := 1000000

/-- Sentinel bounding all real scores from below (`AlphaBeta::NEG_INF`). -/
def NEG_INF : Int := -1000000

/-- The record of one ply (`Node`): the team field, ply depth, the placement
that produced the node (`parent_move`), its score and the unset/terminal
flags.  Modelled from the spec where the header is missing: the score is
undefined until computed (`is_unset = true` initially). -/
structure Node where
  team : Who
  depth : Nat
  parent_move : Location
  score : Int
  is_unset : Bool
  is_terminal : Bool
deriving DecidableEq, Repr

/-- Modelled from the spec: the default-constructed `Node` placed in the
best-moves table at the start of a search, with unset score. -/
def Node.default : Node :=
  { team := Who.home, depth := 0, parent_move := ⟨0, 0, 0, 0⟩,
    score := 0, is_unset := true, is_terminal := false }

/-- Modelled from the spec: `Node::set_score` records a computed score
(the node is no longer unset). -/
def Node.set_score (n : Node) (s : Int) : Node :=
  { n with score := s, is_unset := false }

/-- Modelled from the spec: `Node::set_as_terminal(state)` marks the node
terminal "with sentinel score signed to favor whichever side is *not* to
move" in the given state (the side to move has lost). -/
def Node.set_as_terminal (n : Node) (st : DS) : Node :=
  { n with is_terminal := true, is_unset := false,
           score := if st.cur = Who.home then NEG_INF else POS_INF }

/-- The alpha-beta window (`AlphaBeta`). -/
structure AlphaBeta where
  alpha : Int
  beta : Int
deriving DecidableEq, Repr

/-- Modelled from the spec: `AlphaBeta::update_if_needed` "tightens `alpha` to
`value` if `side` is Home and `value > alpha`; tightens `beta` to `value` if
`side` is Away and `value < beta`". -/
def AlphaBeta.update_if_needed (ab : AlphaBeta) (v : Int) (team : Who) : AlphaBeta :=
  match team with
  | .home => if v > ab.alpha then { ab with alpha := v } else ab
  | .away => if v < ab.beta then { ab with beta := v } else ab

/-- Modelled from the spec: `AlphaBeta::can_prune` is "true if Home's value ≥
current `beta`, or Away's value ≤ current `alpha`". -/
def AlphaBeta.can_prune (ab : AlphaBeta) (v : Int) (team : Who) : Bool :=
  match team with
  | .home => decide (v ≥ ab.beta)
  | .away => decide (v ≤ ab.alpha)

/-! ## Evaluators (`Evaluators.h`, the `score_t` version called by
`Searcher::evaluate`) -/

/-- `Evaluator::grid_empty`: boundary-checked emptiness test (signed
coordinates; out of range is not empty). -/
def grid_empty (r c : Int) (st : DS) : Bool :=
  if r < 0 || r ≥ (st.rows : Int) || c < 0 || c ≥ (st.cols : Int) then false
  else decide (st.getCell r.toNat c.toNat = Cell.empty)

/-- `Evaluator::placable`: a domino fits when both grids are empty. -/
def placable (r1 c1 r2 c2 : Int) (st : DS) : Bool :=
  grid_empty r1 c1 st && grid_empty r2 c2 st

/-- `Evaluator::reserved_for_home`: both cells empty and no space above nor
below (usable only by Home's horizontal tile). -/
def reserved_for_home (r1 c1 r2 c2 : Int) (st : DS) : Bool :=
  if !placable r1 c1 r2 c2 st then false
  else
    (!grid_empty (r1 + 1) c1 st && !grid_empty (r2 + 1) c2 st)
    && (!grid_empty (r1 - 1) c1 st && !grid_empty (r2 - 1) c2 st)

/-- `Evaluator::reserved_for_away`: both cells empty and no space to the left
nor to the right (usable only by Away's vertical tile). -/
def reserved_for_away (r1 c1 r2 c2 : Int) (st : DS) : Bool :=
  if !placable r1 c1 r2 c2 st then false
  else
    (!grid_empty r1 (c1 - 1) st && !grid_empty r2 (c2 - 1) st)
    && (!grid_empty r1 (c1 + 1) st && !grid_empty r2 (c2 + 1) st)

/-- `Evaluator::mark`: overwrite an empty grid with `MARKEDSYM` so it is not
counted again (a non-empty grid is left alone). -/
def mark (r c : Nat) (st : DS) : DS :=
  if st.getCell r c ≠ Cell.empty then st else st.setCell r c Cell.marked

/-- `Evaluator::clear_marks`: revert every `MARKEDSYM` grid to empty. -/
def clear_marks (st : DS) : DS :=
  (List.range st.rows).foldl (fun s i =>
    (List.range st.cols).foldl (fun s j =>
      if s.getCell i j = Cell.marked then s.setCell i j Cell.empty else s) s) st

/-- `EvalHomeReserved`: count (and mark) spots reserved for Home, row-major. -/
def EvalHomeReserved (st : DS) : Int × DS :=
  (List.range st.rows).foldl (fun acc (r : Nat) =>
    (List.range st.cols).foldl (fun (acc : Int × DS) (c : Nat) =>
      if reserved_for_home (r : Int) (c : Int) (r : Int) ((c : Int) + 1) acc.2 then
        (acc.1 + 1, mark r (c + 1) (mark r c acc.2))
      else acc) acc) (0, st)

/-- `EvalHomeOpen`: count (and mark) remaining open horizontal placements for
Home, column-major as in the source. -/
def EvalHomeOpen (st : DS) : Int × DS :=
  (List.range st.cols).foldl (fun acc (c : Nat) =>
    (List.range st.rows).foldl (fun (acc : Int × DS) (r : Nat) =>
      if placable (r : Int) (c : Int) (r : Int) ((c : Int) + 1) acc.2 then
        (acc.1 + 1, mark r (c + 1) (mark r c acc.2))
      else acc) acc) (0, st)

/-- `EvalAwayReserved`: count (and mark) spots reserved for Away. -/
def EvalAwayReserved (st : DS) : Int × DS :=
  (List.range st.cols).foldl (fun acc (c : Nat) =>
    (List.range st.rows).foldl (fun (acc : Int × DS) (r : Nat) =>
      if reserved_for_away (r : Int) (c : Int) ((r : Int) + 1) (c : Int) acc.2 then
        (acc.1 + 1, mark (r + 1) c (mark r c acc.2))
      else acc) acc) (0, st)

/-- `EvalAwayOpen`: count (and mark) remaining open vertical placements for
Away. -/
def EvalAwayOpen (st : DS) : Int × DS :=
  (List.range st.cols).foldl (fun acc (c : Nat) =>
    (List.range st.rows).foldl (fun (acc : Int × DS) (r : Nat) =>
      if placable (r : Int) (c : Int) ((r : Int) + 1) (c : Int) acc.2 then
        (acc.1 + 1, mark (r + 1) c (mark r c acc.2))
      else acc) acc) (0, st)

/-- `ClearMarks`: housekeeping stage clearing the marks, scoring zero. -/
def ClearMarksStage (st : DS) : Int × DS :=
  (0, clear_marks st)

/-- The ordered evaluator list: for each side first the reserved count, then
the open count, then a clear-marks pass; weights `2, 1, 0, -2, -1, 0`. -/
def evaluators : List ((DS → Int × DS) × (DS → Int)) :=
  [ (EvalHomeReserved, fun _ => 2),
    (EvalHomeOpen, fun _ => 1),
    (ClearMarksStage, fun _ => 0),
    (EvalAwayReserved, fun _ => -2),
    (EvalAwayOpen, fun _ => -1),
    (ClearMarksStage, fun _ => 0) ]

/-- `Searcher::evaluate`: weighted sum of the evaluator scores, each scoring
function applied to the threaded scratch copy of the state, each factor to the
original state. -/
def evaluate (st : DS) : Int :=
  (evaluators.foldl
    (fun (acc : Int × DS) p =>
      (acc.1 + p.2 st * (p.1 acc.2).1, (p.1 acc.2).2))
    (0, st)).1

/-! ## The searcher (`Searcher.cpp`) -/

/-- The move-order cache: board state keyed lists of previously observed
children (`std::map<DomineeringState, std::vector<Node>> ordered_moves`). -/
abbrev Cache := List (DS × List Node)

/-- `ordered_moves.find(state)`. -/
def cacheFind (cache : Cache) (st : DS) : Option (List Node) :=
  match cache.find? (fun p => decide (p.1 = st)) with
  | some p => some p.2
  | none => none

/-- `ordered_moves[state].push_back(child)`: append to the entry of the key,
creating it when absent. -/
def cachePush (cache : Cache) (st : DS) (n : Node) : Cache :=
  match cache with
  | [] => [(st, [n])]
  | p :: rest =>
    if p.1 = st then (p.1, p.2 ++ [n]) :: rest else p :: cachePush rest st n

/-- `Searcher::expand`: enumerate, row-major by the first cell, every
placement in the parent team's orientation that passes the legality check of
the current state, producing one child per legal placement with the toggled
team and depth one deeper. -/
def expand (parent : Node) (st : DS) : List Node :=
  let child_team := parent.team.other
  let child_depth := parent.depth + 1
  (List.range st.rows).flatMap (fun r1 =>
    (List.range st.cols).filterMap (fun c1 =>
      let r2 := if parent.team = Who.home then r1 else r1 + 1
      let c2 := if parent.team = Who.home then c1 + 1 else c1
      if st.moveOK ⟨r1, c1, r2, c2⟩ then
        some { team := child_team, depth := child_depth,
               parent_move := ⟨r1, c1, r2, c2⟩,
               score := 0, is_unset := true, is_terminal := false }
      else none))

/-- `Searcher::tap`: place the child's domino; the symbols are flipped "to
reflect the parent's team" (a Home-team child places `AWAYSYM` and vice
versa). -/
def tap (n : Node) (st : DS) : DS :=
  let c := if n.team = Who.home then Cell.away else Cell.home
  (st.setCell n.parent_move.r1 n.parent_move.c1 c).setCell
    n.parent_move.r2 n.parent_move.c2 c

/-- `Searcher::untap`: rewind the placement to empty cells. -/
def untap (n : Node) (st : DS) : DS :=
  (st.setCell n.parent_move.r1 n.parent_move.c1 Cell.empty).setCell
    n.parent_move.r2 n.parent_move.c2 Cell.empty

/-- The body of `search_under`'s per-child loop, with the recursive call
abstracted as `rec` (instantiated with `search_under` at the next fuel).
`best` is the best-moves table, `cache` the move-order cache, `next` the
toggled working state and `cur_st` the state keying depth-2 cache writes. -/
def su_loop (rec : Node → AlphaBeta → DS → List Node → Cache → List Node × Cache)
    (parent : Node) (ab : AlphaBeta) (next : DS)
    (best : List Node) (cache : Cache) (cur_st : DS) :
    List Node → List Node × Cache
  | [] => (best, cache)
  | child :: rest =>
    let tapped := tap child next
    let r := rec child ab tapped best cache
    let best1 := r.1
    let cache1 := r.2
    let next1 := untap child tapped
    let next_move := best1.getD (parent.depth + 1) Node.default
    let result := next_move.score
    let child1 := child.set_score result
    if next_move.is_terminal then
      (best1.set parent.depth (child1.set_as_terminal next1), cache1)
    else
      let cache2 := if parent.depth = 2 then cachePush cache1 cur_st child1 else cache1
      let cur := best1.getD parent.depth Node.default
      let result_better : Bool :=
        if parent.team = Who.home then decide (result > cur.score)
        else decide (result < cur.score)
      if result_better || cur.is_unset then
        let best2 := best1.set parent.depth child1
        let ab1 := ab.update_if_needed result parent.team
        if ab1.can_prune result parent.team then (best2, cache2)
        else su_loop rec parent ab1 next1 best2 cache2 cur_st rest
      else
        su_loop rec parent ab next1 best1 cache2 cur_st rest

/-- `Searcher::search_under`.  The C++ recursion is made total with a fuel
argument (exhausted fuel returns the state unchanged; any fuel above the
recursion depth of a run computes the run, and the structured theorems
quantify over the fuel).  Base case at the horizon records the evaluated
parent; a depth-0 cache hit is consumed and clears the whole cache; childless
positions are terminal; otherwise the current-depth best is reset to the worst
score for the moving side and the children are walked by `su_loop`. -/
def search_under : Nat → Node → AlphaBeta → DS → Nat → List Node → Cache →
    List Node × Cache
  | 0, _, _, _, _, best, cache => (best, cache)
  | fuel + 1, parent, ab, st, limit, best, cache =>
    if limit ≤ parent.depth then
      (best.set parent.depth (parent.set_score (evaluate st)), cache)
    else
      let pc : List Node × Cache :=
        if parent.depth = 0 then
          match cacheFind cache st with
          | some l => (l, ([] : Cache))
          | none => (expand parent st, cache)
        else (expand parent st, cache)
      if pc.1.isEmpty then
        (best.set parent.depth (parent.set_as_terminal st), pc.2)
      else
        let reset := (best.getD parent.depth Node.default).set_score
          (if parent.team = Who.home then NEG_INF else POS_INF)
        su_loop (fun c a s b k => search_under fuel c a s limit b k)
          parent ab st.togglePlayer (best.set parent.depth reset) pc.2 st pc.1

/-- Modelled from the spec: the ordering used by `Searcher::move_order`
(`Node::operator<` is not under `src/`); the background task re-sorts each
cached list by descending score for Home and ascending score for Away. -/
def nodeLE (team : Who) (a b : Node) : Bool :=
  if team = Who.home then decide (b.score ≤ a.score) else decide (a.score ≤ b.score)

/-- Insertion into a sorted list (the sort underlying `move_order`). -/
def insertSorted (le : Node → Node → Bool) (n : Node) : List Node → List Node
  | [] => [n]
  | m :: rest => if le n m then n :: m :: rest else m :: insertSorted le n rest

/-- The sort applied by `move_order` to each cached list. -/
def sortNodes (le : Node → Node → Bool) (l : List Node) : List Node :=
  l.foldr (insertSorted le) []

/-- `Searcher::move_order`: re-sort every cached ordering for the team that
will consume it. -/
def move_order (team : Who) (cache : Cache) : Cache :=
  cache.map fun p => (p.1, sortNodes (nodeLE team) p.2)

/-- The engine state: the root node, the best-moves table and the move-order
cache (the unused transposition table member is omitted; the `move_thread`
member is represented by applying the pending re-sort at the end of `search`,
which is the state any later call observes after its mandatory join). -/
structure Searcher where
  root : Node
  best_moves : List Node
  ordered_moves : Cache
deriving Repr

/-- `Searcher::search`: join the pending task, reset the best-moves table to
`depth_limit + 1` default nodes, run `search_under` from the root with the
full window, schedule the re-sort, and return the front of the table. -/
def Searcher.search (s : Searcher) (st : DS) (depth_limit : Nat) :
    Node × Searcher :=
  let best0 := List.replicate (depth_limit + 1) Node.default
  let ab : AlphaBeta := ⟨NEG_INF, POS_INF⟩
  let r := search_under (depth_limit + 2) s.root ab st depth_limit best0 s.ordered_moves
  (r.1.headD Node.default,
   { root := s.root, best_moves := r.1, ordered_moves := move_order s.root.team r.2 })

/-! ## Reference definitions written from the spec's words (for refinement
comparisons only; the engine definitions above never use them) -/

/-- Following the spec's words (§4.2): a side's fixed orientation — Home
horizontal, Away vertical. -/
def spec_orient (mover : Who) (r c : Nat) : Location :=
  match mover with
  | .home => ⟨r, c, r, c + 1⟩
  | .away => ⟨r, c, r + 1, c⟩

/-- Following the spec's words (§4.2): the row-major (by first cell) list of
cell pairs in a side's fixed orientation that pass the Position's legality
check. -/
def spec_legal_locs (mover : Who) (st : DS) : List Location :=
  (((List.range st.rows).flatMap (fun r => (List.range st.cols).map (fun c => (r, c)))).map
    (fun rc : Nat × Nat => spec_orient mover rc.1 rc.2)).filter
    (fun l => st.moveOK l)

/-- Modelled from the spec (§1, §8): the reference minimax value of a
position.  Home maximizes and Away minimizes; a side to move with no legal
placement has lost (sentinel for the opponent); the static evaluation is used
at the horizon.  Placements are applied with the mover's own symbol. -/
def minimax_value : Nat → DS → Int
  | 0, st => evaluate st
  | limit + 1, st =>
    let ms := spec_legal_locs st.cur st
    if ms.isEmpty then
      if st.cur = Who.home then NEG_INF else POS_INF
    else
      let vals := ms.map (fun l =>
        minimax_value limit
          (((st.setCell l.r1 l.c1 st.cur.cell).setCell l.r2 l.c2 st.cur.cell).togglePlayer))
      if st.cur = Who.home then vals.foldl max NEG_INF
      else vals.foldl min POS_INF

/-! ## Concrete example states used by counterexamples and witnesses -/

/-- A root node for the side Home (the engine's `root` member with Home to
move at the root). -/
def exRootHome : Node := { Node.default with team := Who.home }

/-- A 1x1 board, Home to move: no side has any placement. -/
def exSt11 : DS := { rows := 1, cols := 1, board := [Cell.empty], cur := Who.home }

/-- A 1x2 empty board, Home to move: exactly one horizontal placement. -/
def exSt12 : DS :=
  { rows := 1, cols := 2, board := [Cell.empty, Cell.empty], cur := Who.home }

/-- The failing input for minimax consistency: a 3x2 board whose right column
is blocked below the first row, Home to move.  Home's only move is the top
row; Away replies in the left column and Home is stuck. -/
def exStBug : DS :=
  { rows := 3, cols := 2,
    board := [Cell.empty, Cell.empty, Cell.empty, Cell.away, Cell.empty, Cell.away],
    cur := Who.home }

/-- An engine about to search `exStBug`. -/
def exEngBug : Searcher :=
  { root := exRootHome, best_moves := [], ordered_moves := [] }

/-- An engine with a stale best-moves table (for the determinism theorem's
witness). -/
def exEngStale : Searcher :=
  { root := exRootHome,
    best_moves := [{ Node.default with score := 77, is_unset := false }],
    ordered_moves := [] }

/-- A node at depth 3 (below the cache's reference depth). -/
def exNodeD3 : Node := { Node.default with team := Who.away, depth := 3 }

/-- A nonempty cache entry keyed by `exSt12` (two example caches for the
cache-lifecycle witnesses). -/
def exCacheA : Cache := [(exSt12, [exRootHome])]

/-- A second cache agreeing with `exCacheA` on the key `exSt12` but holding a
further entry. -/
def exCacheB : Cache := [(exSt12, [exRootHome]), (exSt11, [exNodeD3])]

/-- A node at depth 1 (an interior node below the root). -/
def exNodeD1 : Node := { Node.default with team := Who.away, depth := 1 }

/-- An engine whose cache holds an entry keyed by `exSt12`. -/
def exEngCached : Searcher :=
  { root := exRootHome, best_moves := [], ordered_moves := exCacheA }

/-- The scratch state of an evaluator pass differs from the original only by
in-grid cells that were empty and are now carrying the temporary mark (the
relation used to show the clear-marks pass restores the position exactly). -/
def MarksOnly (st s : DS) : Prop :=
  s.rows = st.rows ∧ s.cols = st.cols ∧ s.cur = st.cur ∧
  s.board.length = st.board.length ∧
  ∀ i, s.board.getD i Cell.empty = st.board.getD i Cell.empty ∨
    (st.board.getD i Cell.empty = Cell.empty ∧
     s.board.getD i Cell.empty = Cell.marked ∧ i < st.rows * st.cols)

/-! ## Helper lemmas -/

theorem getD_set_eq {α : Type} (b : List α) (i j : Nat) (x d : α) :
    (b.set i x).getD j d =
      if i = j ∧ i < b.length then x else b.getD j d := by
  rw [List.getD_eq_getElem?_getD, List.getD_eq_getElem?_getD, List.getElem?_set]
  by_cases hij : i = j
  · subst hij
    by_cases hlen : i < b.length
    · simp [hlen]
    · simp only [hlen, and_false, if_neg, if_false, reduceIte]
      rw [List.getElem?_eq_none (by omega)]
  · simp [hij]

theorem DomineeringState.ext_fields {s t : DS} (hr : s.rows = t.rows)
    (hc : s.cols = t.cols) (hb : s.board = t.board) (hw : s.cur = t.cur) :
    s = t := by
  cases s; cases t; simp_all

@[simp] theorem setCell_rows (st : DS) (r c : Nat) (x : Cell) :
    (st.setCell r c x).rows = st.rows := rfl

@[simp] theorem setCell_cols (st : DS) (r c : Nat) (x : Cell) :
    (st.setCell r c x).cols = st.cols := rfl

@[simp] theorem setCell_cur (st : DS) (r c : Nat) (x : Cell) :
    (st.setCell r c x).cur = st.cur := rfl

theorem getCell_eq (t : DS) (r c : Nat) :
    t.getCell r c = t.board.getD (r * t.cols + c) Cell.empty := rfl

theorem setCell_board (t : DS) (r c : Nat) (x : Cell) :
    (t.setCell r c x).board = t.board.set (r * t.cols + c) x := rfl

theorem set_set_restore (b : List Cell) (i j : Nat) (x : Cell)
    (hi : b.getD i Cell.empty = Cell.empty)
    (hj : b.getD j Cell.empty = Cell.empty) :
    (((b.set i x).set j x).set i Cell.empty).set j Cell.empty = b := by
  apply List.ext_getElem?
  intro k
  have hlen : ∀ (l : List Cell) (m : Nat) (y : Cell), (l.set m y).length = l.length :=
    fun l m y => List.length_set ..
  rw [List.getElem?_set, List.getElem?_set]
  simp only [hlen]
  rw [List.getElem?_set, List.getElem?_set]
  rw [List.getD_eq_getElem?_getD] at hi hj
  by_cases hjk : j = k
  · subst hjk
    by_cases h : j < b.length
    · rw [List.getElem?_eq_getElem h] at hj ⊢
      simp at hj
      simp [h, hj]
    · simp only [h, if_false, reduceIte]
      rw [List.getElem?_eq_none (by omega)]
  · by_cases hik : i = k
    · subst hik
      by_cases h : i < b.length
      · rw [List.getElem?_eq_getElem h] at hi ⊢
        simp at hi
        simp [h, hi, hjk]
      · simp only [h, hjk, if_false, reduceIte]
        rw [List.getElem?_eq_none (by omega)]
    · simp [hik, hjk]

/-! ## Claim theorems -/

/-- Claim C4 (tap/untap round-trip): when the two placement cells of a node
are empty in a position, placing the node's domino with `tap` and undoing it
with `untap` restores the position bit for bit. -/
theorem c4_tap_untap_roundtrip (n : Node) (st : DS)
    (h1 : st.getCell n.parent_move.r1 n.parent_move.c1 = Cell.empty)
    (h2 : st.getCell n.parent_move.r2 n.parent_move.c2 = Cell.empty) :
    untap n (tap n st) = st := by
  unfold tap untap
  apply DomineeringState.ext_fields <;> simp [DomineeringState.setCell]
  exact set_set_restore st.board _ _ _ h1 h2

/-- Claim C4 witness: the round-trip at a concrete node and position. -/
theorem c4_witness :
    exSt12.getCell exRootHome.parent_move.r1 exRootHome.parent_move.c1 = Cell.empty ∧
    untap exRootHome (tap exRootHome exSt12) = exSt12 :=
  ⟨by decide, c4_tap_untap_roundtrip exRootHome exSt12 (by decide) (by decide)⟩

/-- Claim C2 (terminal correctness): at a non-horizon node whose side to move
has no legal placement (its child list is empty, with no cached override), the
best node recorded at that depth is terminal with a sentinel score — exactly
`NEG_INF` when the side to move is Home and exactly `POS_INF` when it is Away,
i.e. favoring the side that is not to move. -/
theorem c2_terminal_correctness (fuel : Nat) (parent : Node) (ab : AlphaBeta)
    (st : DS) (limit : Nat) (best : List Node) (cache : Cache)
    (_hmove : st.cur = parent.team)
    (hd : parent.depth < limit) (hlen : parent.depth < best.length)
    (hcf : cacheFind cache st = none) (hexp : expand parent st = []) :
    (search_under (fuel + 1) parent ab st limit best cache).1.getD parent.depth
        Node.default = parent.set_as_terminal st ∧
    ((search_under (fuel + 1) parent ab st limit best cache).1.getD parent.depth
        Node.default).is_terminal = true ∧
    ((search_under (fuel + 1) parent ab st limit best cache).1.getD parent.depth
        Node.default).score = (if st.cur = Who.home then NEG_INF else POS_INF) := by
  have hni : ¬ limit ≤ parent.depth := by omega
  have hbody : (search_under (fuel + 1) parent ab st limit best cache).1 =
      best.set parent.depth (parent.set_as_terminal st) := by
    by_cases h0 : parent.depth = 0 <;>
      simp [search_under, hni, h0, hcf, hexp, show ¬ limit = 0 from by omega]
  rw [hbody, getD_set_eq]
  simp [hlen, Node.set_as_terminal]

/-- Claim C2 witness: the terminal report on a concrete childless position
(the 1x1 board with Home to move). -/
theorem c2_witness :
    exRootHome.depth < 1 ∧ expand exRootHome exSt11 = [] ∧
    (search_under 1 exRootHome ⟨NEG_INF, POS_INF⟩ exSt11 1 [Node.default] []).1.getD
        exRootHome.depth Node.default = exRootHome.set_as_terminal exSt11 ∧
    ((search_under 1 exRootHome ⟨NEG_INF, POS_INF⟩ exSt11 1 [Node.default] []).1.getD
        exRootHome.depth Node.default).score =
      (if exSt11.cur = Who.home then NEG_INF else POS_INF) := by
  refine ⟨by decide, by decide, ?_, ?_⟩
  · exact (c2_terminal_correctness 0 exRootHome ⟨NEG_INF, POS_INF⟩ exSt11 1
      [Node.default] [] (by decide) (by decide) (by decide) (by decide) (by decide)).1
  · exact (c2_terminal_correctness 0 exRootHome ⟨NEG_INF, POS_INF⟩ exSt11 1
      [Node.default] [] (by decide) (by decide) (by decide) (by decide) (by decide)).2.2

/-- Claim C9 (zero depth limit at the public interface): `search(position, 0)`
hits the horizon base case at the root, so the returned node is the engine's
root placeholder carrying `evaluate(position)` as its score — in particular it
keeps the root's placement field and does not represent a legal move. -/
theorem c9_zero_limit_returns_root (s : Searcher) (st : DS)
    (h : s.root.depth = 0) :
    (s.search st 0).1 = s.root.set_score (evaluate st) := by
  unfold Searcher.search
  simp [search_under, h, List.replicate]

/-- Claim C9 witness: a concrete zero-depth search returns the scored root
placeholder. -/
theorem c9_witness :
    exEngBug.root.depth = 0 ∧
    (exEngBug.search exSt12 0).1 = exEngBug.root.set_score (evaluate exSt12) :=
  ⟨by decide, c9_zero_limit_returns_root exEngBug exSt12 (by decide)⟩

/-- Claim C8 (determinism): two engines with the same root and empty
move-order caches return the same best move and the same score on any fixed
position and depth limit, regardless of any stale best-moves tables; with a
functional model this also states that `search` reads no state other than the
root and the cache. -/
theorem c8_determinism (s1 s2 : Searcher) (st : DS) (limit : Nat)
    (hroot : s1.root = s2.root)
    (h1 : s1.ordered_moves = []) (h2 : s2.ordered_moves = []) :
    (s1.search st limit).1 = (s2.search st limit).1 ∧
    (s1.search st limit).1.score = (s2.search st limit).1.score := by
  have h : (s1.search st limit).1 = (s2.search st limit).1 := by
    unfold Searcher.search
    rw [hroot, h1, h2]
  exact ⟨h, by rw [h]⟩

/-- Claim C8 witness: an engine with a stale best-moves table and a fresh one
agree on a concrete search. -/
theorem c8_witness :
    exEngStale.ordered_moves = [] ∧
    (exEngStale.search exSt12 1).1 = (exEngBug.search exSt12 1).1 :=
  ⟨by decide,
   (c8_determinism exEngStale exEngBug exSt12 1 (by decide) (by decide) (by decide)).1⟩

theorem filterMap_ite_eq {α β γ : Type} (h : α → β) (p : β → Bool) (g : β → γ)
    (l : List α) :
    l.filterMap (fun a => if p (h a) then some (g (h a)) else none) =
      ((l.map h).filter p).map g := by
  induction l with
  | nil => rfl
  | cons a t ih =>
    by_cases hp : p (h a) <;>
      simp [List.filterMap_cons, List.filter_cons, hp, ih]

theorem flatMap_pair_map_filter_map {α β : Type} (rows cols : List Nat)
    (orient : Nat → Nat → α) (p : α → Bool) (g : α → β) :
    ((((rows.flatMap (fun r => cols.map (fun c => (r, c)))).map
        (fun rc : Nat × Nat => orient rc.1 rc.2)).filter p).map g) =
      rows.flatMap (fun r => ((cols.map (orient r)).filter p).map g) := by
  induction rows with
  | nil => rfl
  | cons r t ih =>
    simp only [List.flatMap_cons, List.map_append, List.filter_append, ih,
      List.map_map]
    rfl

/-- Claim C6 counterexample: on the 1x2 board with Home to move, `expand`
produces a (nonempty) child list in which not every child is tagged with the
moving side — the claim "each child tagged with the moving side" is false on
the code (children carry the toggled team). -/
theorem c6_counterexample :
    ¬ (∀ n ∈ expand exRootHome exSt12, n.team = exSt12.cur) := by decide

/-- Claim C6 as amended: `expand` returns exactly one unscored child per legal
placement of the parent's side, in that side's fixed orientation, enumerated
row-major by the first cell and filtered by the position's legality check,
each child carrying depth `parent.depth + 1` and tagged with the *opponent* of
the moving side (the side to move in the resulting position). -/
theorem c6_expand_refines (parent : Node) (st : DS) :
    expand parent st = (spec_legal_locs parent.team st).map (fun l =>
      { team := parent.team.other, depth := parent.depth + 1, parent_move := l,
        score := 0, is_unset := true, is_terminal := false }) := by
  unfold expand spec_legal_locs
  cases parent.team
  case home =>
    rw [flatMap_pair_map_filter_map (List.range st.rows) (List.range st.cols)
      (spec_orient Who.home) (fun l => st.moveOK l)
      (fun l => ({ team := Who.other Who.home, depth := parent.depth + 1,
                   parent_move := l, score := 0, is_unset := true,
                   is_terminal := false } : Node))]
    simp only [Who.other, reduceIte]
    congr 1
    funext r1
    have h := filterMap_ite_eq (fun c1 => spec_orient Who.home r1 c1)
      (fun l => st.moveOK l)
      (fun l => ({ team := Who.other Who.home, depth := parent.depth + 1,
                   parent_move := l, score := 0, is_unset := true,
                   is_terminal := false } : Node))
      (List.range st.cols)
    simpa [spec_orient] using h
  case away =>
    rw [flatMap_pair_map_filter_map (List.range st.rows) (List.range st.cols)
      (spec_orient Who.away) (fun l => st.moveOK l)
      (fun l => ({ team := Who.other Who.away, depth := parent.depth + 1,
                   parent_move := l, score := 0, is_unset := true,
                   is_terminal := false } : Node))]
    simp only [Who.other, reduceIte]
    congr 1
    funext r1
    have h := filterMap_ite_eq (fun c1 => spec_orient Who.away r1 c1)
      (fun l => st.moveOK l)
      (fun l => ({ team := Who.other Who.away, depth := parent.depth + 1,
                   parent_move := l, score := 0, is_unset := true,
                   is_terminal := false } : Node))
      (List.range st.cols)
    simpa [spec_orient] using h

/-- Claim C1: the concrete run showing the failing input.  On `exStBug`
(Home to move, depth limit 3, empty cache) the engine returns the root move
with score `POS_INF`, marked terminal — a claimed forced win for Home — while
the backed-up score of its only child (the depth-1 slot) is `NEG_INF` and the
reference minimax value of the position is `NEG_INF` (Home's only move loses).
The backed-up root score is therefore not the maximum of the children's
backed-up scores, and the terminal short-circuit re-signs the sentinel toward
the mover at each propagation level. -/
theorem c1_terminal_shortcircuit_bug :
    (exEngBug.search exStBug 3).1.score = POS_INF ∧
    (exEngBug.search exStBug 3).1.is_terminal = true ∧
    ((exEngBug.search exStBug 3).2.best_moves.getD 1 Node.default).score = NEG_INF ∧
    ((exEngBug.search exStBug 3).2.best_moves.getD 1 Node.default).is_terminal = true ∧
    minimax_value 3 exStBug = NEG_INF := by decide

theorem expand_mem_depth (parent : Node) (st : DS) :
    ∀ n ∈ expand parent st, n.depth = parent.depth + 1 := by
  intro n hn
  unfold expand at hn
  simp only [List.mem_flatMap, List.mem_filterMap, List.mem_range] at hn
  obtain ⟨r, _, c, _, h⟩ := hn
  by_cases hok : st.moveOK ⟨r, c, if parent.team = Who.home then r else r + 1,
      if parent.team = Who.home then c + 1 else c⟩
  · rw [if_pos hok] at h
    cases h
    rfl
  · rw [if_neg hok] at h
    cases h

theorem su_loop_cache_frame
    (rec : Node → AlphaBeta → DS → List Node → Cache → List Node × Cache)
    (parent : Node) (cur_st : DS) (children : List Node)
    (hd2 : parent.depth ≠ 2)
    (hrec : ∀ c ∈ children, ∀ a s b k, (rec c a s b k).2 = k) :
    ∀ (ab : AlphaBeta) (next : DS) (best : List Node) (cache : Cache),
      (su_loop rec parent ab next best cache cur_st children).2 = cache := by
  induction children with
  | nil => intro ab next best cache; rfl
  | cons child rest ih =>
    intro ab next best cache
    have hchild := hrec child (List.mem_cons_self child rest) ab (tap child next)
      best cache
    have hrest : ∀ c ∈ rest, ∀ a s b k, (rec c a s b k).2 = k :=
      fun c hc => hrec c (List.mem_cons_of_mem child hc)
    simp only [su_loop, hd2, if_false, reduceIte, hchild]
    repeat' split
    all_goals first
      | rfl
      | exact ih hrest _ _ _ _

theorem search_under_cache_frame (fuel : Nat) :
    ∀ (parent : Node) (ab : AlphaBeta) (st : DS) (limit : Nat)
      (best : List Node) (cache : Cache), 3 ≤ parent.depth →
      (search_under fuel parent ab st limit best cache).2 = cache := by
  induction fuel with
  | zero => intro parent ab st limit best cache _; rfl
  | succ n ih =>
    intro parent ab st limit best cache h
    by_cases hb : limit ≤ parent.depth
    · simp [search_under, hb]
    · have hd0 : ¬ parent.depth = 0 := by omega
      simp only [search_under, hb, hd0, if_false, reduceIte]
      by_cases he : (expand parent st).isEmpty
      · simp [he]
      · simp only [he, Bool.false_eq_true, if_false, reduceIte]
        refine su_loop_cache_frame _ parent st (expand parent st) (by omega) ?_ _ _ _ _
        intro c hc a s b k
        exact ih c a s limit b k
          (by have := expand_mem_depth parent st c hc; omega)

theorem su_loop_best_congr
    (rec1 rec2 : Node → AlphaBeta → DS → List Node → Cache → List Node × Cache)
    (parent : Node) (cur_st1 cur_st2 : DS) (children : List Node)
    (hrec : ∀ c ∈ children, ∀ a s b k1 k2, (rec1 c a s b k1).1 = (rec2 c a s b k2).1) :
    ∀ (ab : AlphaBeta) (next : DS) (best : List Node) (cache1 cache2 : Cache),
      (su_loop rec1 parent ab next best cache1 cur_st1 children).1 =
      (su_loop rec2 parent ab next best cache2 cur_st2 children).1 := by
  induction children with
  | nil => intros; rfl
  | cons child rest ih =>
    intro ab next best cache1 cache2
    have hchild := hrec child (List.mem_cons_self child rest) ab (tap child next)
      best cache1 cache2
    have hrest : ∀ c ∈ rest, ∀ a s b k1 k2, (rec1 c a s b k1).1 = (rec2 c a s b k2).1 :=
      fun c hc => hrec c (List.mem_cons_of_mem child hc)
    simp only [su_loop, hchild]
    repeat' split
    all_goals first
      | rfl
      | exact ih hrest _ _ _ _ _

theorem search_under_best_congr (fuel : Nat) :
    ∀ (parent : Node) (ab : AlphaBeta) (st : DS) (limit : Nat)
      (best : List Node) (c1 c2 : Cache), 1 ≤ parent.depth →
      (search_under fuel parent ab st limit best c1).1 =
      (search_under fuel parent ab st limit best c2).1 := by
  induction fuel with
  | zero => intro parent ab st limit best c1 c2 _; rfl
  | succ n ih =>
    intro parent ab st limit best c1 c2 h
    by_cases hb : limit ≤ parent.depth
    · simp [search_under, hb]
    · have hd0 : ¬ parent.depth = 0 := by omega
      simp only [search_under, hb, hd0, if_false, reduceIte]
      by_cases he : (expand parent st).isEmpty
      · simp [he]
      · simp only [he, Bool.false_eq_true, if_false, reduceIte]
        refine su_loop_best_congr _ _ parent st st (expand parent st) ?_ _ _ _ _ _
        intro c hc a s b k1 k2
        exact ih c a s limit b k1 k2
          (by have := expand_mem_depth parent st c hc; omega)

theorem su_loop_cache_nil
    (rec : Node → AlphaBeta → DS → List Node → Cache → List Node × Cache)
    (parent : Node) (cur_st : DS) (children : List Node)
    (hd2 : parent.depth ≠ 2)
    (hrec : ∀ c ∈ children, ∀ a s b, (rec c a s b []).2 = []) :
    ∀ (ab : AlphaBeta) (next : DS) (best : List Node),
      (su_loop rec parent ab next best [] cur_st children).2 = [] := by
  induction children with
  | nil => intros; rfl
  | cons child rest ih =>
    intro ab next best
    have hchild := hrec child (List.mem_cons_self child rest) ab (tap child next) best
    have hrest : ∀ c ∈ rest, ∀ a s b, (rec c a s b []).2 = [] :=
      fun c hc => hrec c (List.mem_cons_of_mem child hc)
    simp only [su_loop, hd2, if_false, reduceIte, hchild]
    repeat' split
    all_goals first
      | rfl
      | exact ih hrest _ _ _

theorem search_under_cache_empty (fuel : Nat) :
    ∀ (parent : Node) (ab : AlphaBeta) (st : DS) (limit : Nat)
      (best : List Node), limit ≤ 2 →
      (search_under fuel parent ab st limit best []).2 = [] := by
  induction fuel with
  | zero => intro parent ab st limit best _; rfl
  | succ n ih =>
    intro parent ab st limit best hl
    by_cases hb : limit ≤ parent.depth
    · simp [search_under, hb]
    · simp only [search_under, hb, if_false, reduceIte]
      have hfind : cacheFind [] st = none := rfl
      by_cases hd0 : parent.depth = 0 <;>
        [skip; skip] <;>
        simp only [hd0, if_true, if_false, reduceIte, hfind] <;>
        by_cases he : (expand parent st).isEmpty <;>
        simp only [he, Bool.false_eq_true, if_false, if_true, reduceIte] <;>
        first
          | rfl
          | (refine su_loop_cache_nil _ parent st (expand parent st) (by omega) ?_ _ _ _
             intro c hc a s b
             exact ih c a s limit b hl)

theorem search_under_consume (fuel : Nat) (parent : Node) (ab : AlphaBeta)
    (st : DS) (limit : Nat) (best : List Node) (c1 c2 : Cache) (L : List Node)
    (hd : parent.depth = 0) (hl : 0 < limit)
    (h1 : cacheFind c1 st = some L) (h2 : cacheFind c2 st = some L) :
    search_under (fuel + 1) parent ab st limit best c1 =
    search_under (fuel + 1) parent ab st limit best c2 := by
  have hb : ¬ limit ≤ parent.depth := by omega
  simp [search_under, hb, hd, h1, h2, show ¬ limit = 0 from by omega]

theorem search_under_consume_nil (fuel : Nat) (parent : Node) (ab : AlphaBeta)
    (st : DS) (limit : Nat) (best : List Node) (cache : Cache) (L : List Node)
    (hd : parent.depth = 0) (hl : 0 < limit) (hl2 : limit ≤ 2)
    (hfind : cacheFind cache st = some L) :
    (search_under (fuel + 1) parent ab st limit best cache).2 = [] := by
  have hb0 : ¬ limit ≤ 0 := by omega
  simp only [search_under, hd, hfind, hb0, if_true, if_false, reduceIte]
  by_cases he : L.isEmpty
  · simp [he]
  · simp only [he, Bool.false_eq_true, if_false, reduceIte]
    refine su_loop_cache_nil _ parent st L (by omega) ?_ _ _ _
    intro c hc a s b
    exact search_under_cache_empty fuel c a s limit b hl2

/-- Claim C3 (move-order cache lifecycle), in three parts.  (1) Writes happen
only while walking nodes of depth at most 2: below depth 3 of the tree the
cache passes through every call unchanged.  (2) The cache is read only at the
root: for any node of depth at least 1, the best-moves outcome is the same
for any two cache contents, so an entry can bias a search only when consumed
at the start of a call whose root state matches its key.  (3) One-shot
consumption: a search that consumes a matching root entry (here with depth
limit at most 2, so that no depth-2 interior nodes rebuild entries) leaves
the cache empty — the consumed entry is invalidated and cannot bias a second
subsequent search. -/
theorem c3_cache_lifecycle :
    (∀ (fuel : Nat) (parent : Node) (ab : AlphaBeta) (st : DS) (limit : Nat)
       (best : List Node) (cache : Cache), 3 ≤ parent.depth →
       (search_under fuel parent ab st limit best cache).2 = cache) ∧
    (∀ (fuel : Nat) (parent : Node) (ab : AlphaBeta) (st : DS) (limit : Nat)
       (best : List Node) (c1 c2 : Cache), 1 ≤ parent.depth →
       (search_under fuel parent ab st limit best c1).1 =
       (search_under fuel parent ab st limit best c2).1) ∧
    (∀ (s : Searcher) (st : DS) (limit : Nat) (L : List Node),
       s.root.depth = 0 → 0 < limit → limit ≤ 2 →
       cacheFind s.ordered_moves st = some L →
       (s.search st limit).2.ordered_moves = []) := by
  refine ⟨?_, ?_, ?_⟩
  · intro fuel parent ab st limit best cache h
    exact search_under_cache_frame fuel parent ab st limit best cache h
  · intro fuel parent ab st limit best c1 c2 h
    exact search_under_best_congr fuel parent ab st limit best c1 c2 h
  · intro s st limit L hroot hl hl2 hfind
    unfold Searcher.search
    have h := search_under_consume_nil (limit + 1) s.root ⟨NEG_INF, POS_INF⟩ st limit
      (List.replicate (limit + 1) Node.default) s.ordered_moves L hroot hl hl2 hfind
    simp only [move_order]
    rw [h]
    rfl

/-- Claim C3 witness: the three parts at concrete inputs — a depth-3 node
leaves a concrete cache untouched; a depth-1 node computes the same best
moves under two different caches; a consuming root search empties the
concrete cache. -/
theorem c3_witness :
    3 ≤ exNodeD3.depth ∧
    (search_under 1 exNodeD3 ⟨NEG_INF, POS_INF⟩ exSt12 5 [] exCacheA).2 = exCacheA ∧
    (search_under 2 exNodeD1 ⟨NEG_INF, POS_INF⟩ exSt12 2 [] exCacheA).1 =
      (search_under 2 exNodeD1 ⟨NEG_INF, POS_INF⟩ exSt12 2 [] []).1 ∧
    (exEngCached.search exSt12 2).2.ordered_moves = [] := by
  refine ⟨by decide, ?_, ?_, ?_⟩
  · exact c3_cache_lifecycle.1 1 exNodeD3 ⟨NEG_INF, POS_INF⟩ exSt12 5 [] exCacheA
      (by decide)
  · exact c3_cache_lifecycle.2.1 2 exNodeD1 ⟨NEG_INF, POS_INF⟩ exSt12 2 [] exCacheA []
      (by decide)
  · exact c3_cache_lifecycle.2.2 exEngCached exSt12 2 [exRootHome]
      (by decide) (by decide) (by decide) (by decide)

/-- Claim C10 (implicit cache-wide invalidation): when a cached ordering is
consumed at the root, the whole cache is dropped, not only the consumed
entry.  (1) Two caches that agree on the root entry — however many further
entries either holds — produce identical results, because everything except
the consumed entry is discarded.  (2) After a consuming search with depth
limit at most 2 (so no fresh depth-2 writes occur) the cache is empty, the
consumed entry itself included. -/
theorem c10_cache_wide_invalidation :
    (∀ (fuel : Nat) (parent : Node) (ab : AlphaBeta) (st : DS) (limit : Nat)
       (best : List Node) (c1 c2 : Cache) (L : List Node),
       parent.depth = 0 → 0 < limit →
       cacheFind c1 st = some L → cacheFind c2 st = some L →
       search_under (fuel + 1) parent ab st limit best c1 =
       search_under (fuel + 1) parent ab st limit best c2) ∧
    (∀ (fuel : Nat) (parent : Node) (ab : AlphaBeta) (st : DS) (limit : Nat)
       (best : List Node) (cache : Cache) (L : List Node),
       parent.depth = 0 → 0 < limit → limit ≤ 2 →
       cacheFind cache st = some L →
       (search_under (fuel + 1) parent ab st limit best cache).2 = []) := by
  constructor
  · intro fuel parent ab st limit best c1 c2 L hd hl h1 h2
    exact search_under_consume fuel parent ab st limit best c1 c2 L hd hl h1 h2
  · intro fuel parent ab st limit best cache L hd hl hl2 hfind
    exact search_under_consume_nil fuel parent ab st limit best cache L hd hl hl2 hfind

/-- Claim C10 witness: at a root consumption of the `exSt12` entry, a
one-entry cache and a two-entry cache (sharing that entry) yield identical
results, and the consuming search leaves the two-entry cache empty. -/
theorem c10_witness :
    cacheFind exCacheA exSt12 = some [exRootHome] ∧
    search_under 1 exRootHome ⟨NEG_INF, POS_INF⟩ exSt12 2 [] exCacheA =
      search_under 1 exRootHome ⟨NEG_INF, POS_INF⟩ exSt12 2 [] exCacheB ∧
    (search_under 1 exRootHome ⟨NEG_INF, POS_INF⟩ exSt12 2 [] exCacheB).2 = [] := by
  refine ⟨by decide, ?_, ?_⟩
  · exact c10_cache_wide_invalidation.1 0 exRootHome ⟨NEG_INF, POS_INF⟩ exSt12 2 []
      exCacheA exCacheB [exRootHome] (by decide) (by decide) (by decide) (by decide)
  · exact c10_cache_wide_invalidation.2 0 exRootHome ⟨NEG_INF, POS_INF⟩ exSt12 2 []
      exCacheB [exRootHome] (by decide) (by decide) (by decide) (by decide)

theorem marksOnly_refl (st : DS) : MarksOnly st st :=
  ⟨rfl, rfl, rfl, rfl, fun _ => Or.inl rfl⟩

theorem getD_lt_of_ne_default (b : List Cell) (k : Nat)
    (h : b.getD k Cell.empty ≠ Cell.empty) : k < b.length := by
  by_contra hk
  exact h (List.getD_eq_default b Cell.empty (by omega))

theorem grid_empty_true (r c : Int) (s : DS) (h : grid_empty r c s = true) :
    0 ≤ r ∧ r < (s.rows : Int) ∧ 0 ≤ c ∧ c < (s.cols : Int) ∧
      s.getCell r.toNat c.toNat = Cell.empty := by
  unfold grid_empty at h
  split at h
  · exact absurd h (by simp)
  · next hcond =>
    simp only [Bool.or_eq_true, decide_eq_true_eq, not_or] at hcond
    simp only [decide_eq_true_eq] at h
    push_neg at hcond
    refine ⟨by omega, by omega, by omega, by omega, h⟩

theorem placable_split (r1 c1 r2 c2 : Int) (s : DS)
    (h : placable r1 c1 r2 c2 s = true) :
    grid_empty r1 c1 s = true ∧ grid_empty r2 c2 s = true := by
  simpa [placable, Bool.and_eq_true] using h

theorem reserved_for_home_placable (r1 c1 r2 c2 : Int) (s : DS)
    (h : reserved_for_home r1 c1 r2 c2 s = true) :
    placable r1 c1 r2 c2 s = true := by
  cases hpb : placable r1 c1 r2 c2 s with
  | true => rfl
  | false => unfold reserved_for_home at h; rw [hpb] at h; simp at h

theorem reserved_for_away_placable (r1 c1 r2 c2 : Int) (s : DS)
    (h : reserved_for_away r1 c1 r2 c2 s = true) :
    placable r1 c1 r2 c2 s = true := by
  cases hpb : placable r1 c1 r2 c2 s with
  | true => rfl
  | false => unfold reserved_for_away at h; rw [hpb] at h; simp at h

@[simp] theorem mark_rows (r c : Nat) (s : DS) : (mark r c s).rows = s.rows := by
  unfold mark; split <;> rfl

@[simp] theorem mark_cols (r c : Nat) (s : DS) : (mark r c s).cols = s.cols := by
  unfold mark; split <;> rfl

theorem marksOnly_mark (st s : DS) (r c : Nat) (hM : MarksOnly st s)
    (hr : r < s.rows) (hc : c < s.cols) : MarksOnly st (mark r c s) := by
  obtain ⟨h1, h2, h3, h4, h5⟩ := hM
  unfold mark
  by_cases he : s.getCell r c ≠ Cell.empty
  · rw [if_pos he]
    exact ⟨h1, h2, h3, h4, h5⟩
  · rw [if_neg he]
    push_neg at he
    unfold DomineeringState.getCell DomineeringState.idx at he
    refine ⟨h1, h2, h3, by simpa [DomineeringState.setCell] using h4, ?_⟩
    intro i
    unfold DomineeringState.setCell DomineeringState.idx
    simp only
    rw [getD_set_eq]
    by_cases hidx : r * s.cols + c = i ∧ r * s.cols + c < s.board.length
    · rw [if_pos hidx]
      obtain ⟨hie, _⟩ := hidx
      right
      have hst : st.board.getD i Cell.empty = Cell.empty := by
        rcases h5 i with hsame | ⟨_, hmk, _⟩
        · rw [← hsame, ← hie]; exact he
        · rw [← hie, he] at hmk; simp at hmk
      refine ⟨hst, rfl, ?_⟩
      rw [← hie]
      have hrc : r * s.cols + c < s.rows * s.cols := by
        have hstep : (r + 1) * s.cols = r * s.cols + s.cols := Nat.succ_mul r s.cols
        have h2' : (r + 1) * s.cols ≤ s.rows * s.cols :=
          Nat.mul_le_mul_right _ (by omega)
        omega
      have hdim : s.rows * s.cols = st.rows * st.cols := by rw [h1, h2]
      rw [← hdim]
      exact hrc
    · rw [if_neg hidx]
      exact h5 i

theorem marksOnly_foldl {α : Type} (st : DS) (f : (Int × DS) → α → Int × DS)
    (hf : ∀ acc x, MarksOnly st acc.2 → MarksOnly st (f acc x).2) :
    ∀ (l : List α) (acc : Int × DS), MarksOnly st acc.2 →
      MarksOnly st (l.foldl f acc).2 := by
  intro l
  induction l with
  | nil => intro acc h; exact h
  | cons x t ih => intro acc h; exact ih (f acc x) (hf acc x h)

theorem EvalHomeReserved_marksOnly (st s : DS) (h : MarksOnly st s) :
    MarksOnly st (EvalHomeReserved s).2 := by
  unfold EvalHomeReserved
  refine marksOnly_foldl st _ ?_ (List.range s.rows) (0, s) h
  intro acc r hacc
  refine marksOnly_foldl st _ ?_ (List.range s.cols) acc hacc
  intro acc2 c hacc2
  by_cases hcond : reserved_for_home (r : Int) (c : Int) (r : Int) ((c : Int) + 1) acc2.2 = true
  · rw [if_pos hcond]
    have hp := reserved_for_home_placable _ _ _ _ _ hcond
    obtain ⟨g1, g2⟩ := placable_split _ _ _ _ _ hp
    have b1 := grid_empty_true _ _ _ g1
    have b2 := grid_empty_true _ _ _ g2
    have hr : r < acc2.2.rows := by exact_mod_cast b1.2.1
    have hc : c < acc2.2.cols := by exact_mod_cast b1.2.2.2.1
    have hc1 : c + 1 < acc2.2.cols := by exact_mod_cast b2.2.2.2.1
    exact marksOnly_mark st _ r (c + 1)
      (marksOnly_mark st _ r c hacc2 hr hc)
      (by simpa using hr) (by simpa using hc1)
  · rw [if_neg hcond]
    exact hacc2

theorem EvalHomeOpen_marksOnly (st s : DS) (h : MarksOnly st s) :
    MarksOnly st (EvalHomeOpen s).2 := by
  unfold EvalHomeOpen
  refine marksOnly_foldl st _ ?_ (List.range s.cols) (0, s) h
  intro acc c hacc
  refine marksOnly_foldl st _ ?_ (List.range s.rows) acc hacc
  intro acc2 r hacc2
  by_cases hcond : placable (r : Int) (c : Int) (r : Int) ((c : Int) + 1) acc2.2 = true
  · rw [if_pos hcond]
    obtain ⟨g1, g2⟩ := placable_split _ _ _ _ _ hcond
    have b1 := grid_empty_true _ _ _ g1
    have b2 := grid_empty_true _ _ _ g2
    have hr : r < acc2.2.rows := by exact_mod_cast b1.2.1
    have hc : c < acc2.2.cols := by exact_mod_cast b1.2.2.2.1
    have hc1 : c + 1 < acc2.2.cols := by exact_mod_cast b2.2.2.2.1
    exact marksOnly_mark st _ r (c + 1)
      (marksOnly_mark st _ r c hacc2 hr hc)
      (by simpa using hr) (by simpa using hc1)
  · rw [if_neg hcond]
    exact hacc2

theorem EvalAwayReserved_marksOnly (st s : DS) (h : MarksOnly st s) :
    MarksOnly st (EvalAwayReserved s).2 := by
  unfold EvalAwayReserved
  refine marksOnly_foldl st _ ?_ (List.range s.cols) (0, s) h
  intro acc c hacc
  refine marksOnly_foldl st _ ?_ (List.range s.rows) acc hacc
  intro acc2 r hacc2
  by_cases hcond : reserved_for_away (r : Int) (c : Int) ((r : Int) + 1) (c : Int) acc2.2 = true
  · rw [if_pos hcond]
    have hp := reserved_for_away_placable _ _ _ _ _ hcond
    obtain ⟨g1, g2⟩ := placable_split _ _ _ _ _ hp
    have b1 := grid_empty_true _ _ _ g1
    have b2 := grid_empty_true _ _ _ g2
    have hr : r < acc2.2.rows := by exact_mod_cast b1.2.1
    have hc : c < acc2.2.cols := by exact_mod_cast b1.2.2.2.1
    have hr1 : r + 1 < acc2.2.rows := by exact_mod_cast b2.2.1
    exact marksOnly_mark st _ (r + 1) c
      (marksOnly_mark st _ r c hacc2 hr hc)
      (by simpa using hr1) (by simpa using hc)
  · rw [if_neg hcond]
    exact hacc2

theorem EvalAwayOpen_marksOnly (st s : DS) (h : MarksOnly st s) :
    MarksOnly st (EvalAwayOpen s).2 := by
  unfold EvalAwayOpen
  refine marksOnly_foldl st _ ?_ (List.range s.cols) (0, s) h
  intro acc c hacc
  refine marksOnly_foldl st _ ?_ (List.range s.rows) acc hacc
  intro acc2 r hacc2
  by_cases hcond : placable (r : Int) (c : Int) ((r : Int) + 1) (c : Int) acc2.2 = true
  · rw [if_pos hcond]
    obtain ⟨g1, g2⟩ := placable_split _ _ _ _ _ hcond
    have b1 := grid_empty_true _ _ _ g1
    have b2 := grid_empty_true _ _ _ g2
    have hr : r < acc2.2.rows := by exact_mod_cast b1.2.1
    have hc : c < acc2.2.cols := by exact_mod_cast b1.2.2.2.1
    have hr1 : r + 1 < acc2.2.rows := by exact_mod_cast b2.2.1
    exact marksOnly_mark st _ (r + 1) c
      (marksOnly_mark st _ r c hacc2 hr hc)
      (by simpa using hr1) (by simpa using hc)
  · rw [if_neg hcond]
    exact hacc2

theorem clear_inner_char (i : Nat) : ∀ (jn : Nat) (s res : DS),
    (List.range jn).foldl
      (fun t j => if t.getCell i j = Cell.marked then t.setCell i j Cell.empty else t)
      s = res →
    res.rows = s.rows ∧ res.cols = s.cols ∧ res.cur = s.cur ∧
    res.board.length = s.board.length ∧
    ∀ k, res.board.getD k Cell.empty =
      if ∃ j, j < jn ∧ k = i * s.cols + j ∧ s.board.getD k Cell.empty = Cell.marked
      then Cell.empty else s.board.getD k Cell.empty := by
  intro jn
  induction jn with
  | zero =>
    intro s res hres
    simp only [List.range_zero, List.foldl_nil] at hres
    subst hres
    exact ⟨rfl, rfl, rfl, rfl, fun k => by simp⟩
  | succ jn ih =>
    intro s res hres
    rw [List.range_succ, List.foldl_append, List.foldl_cons, List.foldl_nil] at hres
    obtain ⟨i1, i2, i3, i4, i5⟩ := ih s _ rfl
    subst hres
    have hidx : ((List.range jn).foldl
        (fun t j => if t.getCell i j = Cell.marked then t.setCell i j Cell.empty else t)
        s).getCell i jn =
        ((List.range jn).foldl
          (fun t j => if t.getCell i j = Cell.marked then t.setCell i j Cell.empty else t)
          s).board.getD (i * s.cols + jn) Cell.empty := by
      rw [getCell_eq, i2]
    have hpi : ((List.range jn).foldl
        (fun t j => if t.getCell i j = Cell.marked then t.setCell i j Cell.empty else t)
        s).board.getD (i * s.cols + jn) Cell.empty =
        s.board.getD (i * s.cols + jn) Cell.empty := by
      rw [i5]
      rw [if_neg]
      rintro ⟨j, hj, he, _⟩
      omega
    by_cases hm : s.board.getD (i * s.cols + jn) Cell.empty = Cell.marked
    · rw [if_pos (by rw [hidx, hpi]; exact hm)]
      refine ⟨by simpa using i1, by simpa using i2, by simpa using i3, ?_, ?_⟩
      · rw [setCell_board, List.length_set]
        exact i4
      · intro k
        rw [setCell_board, i2, getD_set_eq]
        by_cases hk : i * s.cols + jn = k ∧
            i * s.cols + jn < ((List.range jn).foldl
              (fun t j => if t.getCell i j = Cell.marked then t.setCell i j Cell.empty else t)
              s).board.length
        · rw [if_pos hk]
          rw [if_pos ⟨jn, by omega, hk.1.symm, by rw [← hk.1]; exact hm⟩]
        · rw [if_neg hk, i5 k]
          by_cases hC : ∃ j, j < jn ∧ k = i * s.cols + j ∧
              s.board.getD k Cell.empty = Cell.marked
          · rw [if_pos hC]
            obtain ⟨j, hj, hkj, hmk⟩ := hC
            rw [if_pos ⟨j, by omega, hkj, hmk⟩]
          · rw [if_neg hC, if_neg ?_]
            rintro ⟨j, hj, hkj, hmk⟩
            by_cases hjn : j = jn
            · subst hjn
              refine hk ⟨hkj.symm, ?_⟩
              rw [i4]
              rw [hkj] at hmk
              exact getD_lt_of_ne_default s.board _ (by rw [hmk]; intro hcontra; cases hcontra)
            · exact hC ⟨j, by omega, hkj, hmk⟩
    · rw [if_neg (by rw [hidx, hpi]; exact hm)]
      refine ⟨i1, i2, i3, i4, ?_⟩
      intro k
      rw [i5 k]
      by_cases hC : ∃ j, j < jn ∧ k = i * s.cols + j ∧
          s.board.getD k Cell.empty = Cell.marked
      · rw [if_pos hC]
        obtain ⟨j, hj, hkj, hmk⟩ := hC
        rw [if_pos ⟨j, by omega, hkj, hmk⟩]
      · rw [if_neg hC, if_neg ?_]
        rintro ⟨j, hj, hkj, hmk⟩
        by_cases hjn : j = jn
        · subst hjn
          rw [hkj] at hmk
          exact hm hmk
        · exact hC ⟨j, by omega, hkj, hmk⟩

theorem clear_outer_char (s : DS) : ∀ (im : Nat) (res : DS),
    (List.range im).foldl
      (fun t i => (List.range s.cols).foldl
        (fun t j => if t.getCell i j = Cell.marked then t.setCell i j Cell.empty else t) t)
      s = res →
    res.rows = s.rows ∧ res.cols = s.cols ∧ res.cur = s.cur ∧
    res.board.length = s.board.length ∧
    ∀ k, res.board.getD k Cell.empty =
      if ∃ i, i < im ∧ ∃ j, j < s.cols ∧ k = i * s.cols + j ∧
          s.board.getD k Cell.empty = Cell.marked
      then Cell.empty else s.board.getD k Cell.empty := by
  intro im
  induction im with
  | zero =>
    intro res hres
    simp only [List.range_zero, List.foldl_nil] at hres
    subst hres
    refine ⟨rfl, rfl, rfl, rfl, fun k => ?_⟩
    rw [if_neg]
    rintro ⟨i, hi, _⟩
    omega
  | succ im ih =>
    intro res hres
    rw [List.range_succ, List.foldl_append, List.foldl_cons, List.foldl_nil] at hres
    obtain ⟨o1, o2, o3, o4, o5⟩ := ih _ rfl
    obtain ⟨n1, n2, n3, n4, n5⟩ := clear_inner_char im s.cols _ res hres
    refine ⟨by rw [n1, o1], by rw [n2, o2], by rw [n3, o3], by rw [n4, o4], ?_⟩
    intro k
    have n5k := n5 k
    simp only [o2] at n5k
    by_cases hk_row : ∃ j, j < s.cols ∧ k = im * s.cols + j
    · obtain ⟨j0, hj0, hk0⟩ := hk_row
      have hCim_false : ¬(∃ i, i < im ∧ ∃ j, j < s.cols ∧ k = i * s.cols + j ∧
          s.board.getD k Cell.empty = Cell.marked) := by
        rintro ⟨i, hi, j, hj, hkij, _⟩
        have h1 : i * s.cols + j < (i + 1) * s.cols := by
          rw [Nat.add_mul, Nat.one_mul]; omega
        have h2 : (i + 1) * s.cols ≤ im * s.cols :=
          Nat.mul_le_mul_right _ (by omega)
        omega
      have hpk : (List.foldl
          (fun t i => (List.range s.cols).foldl
            (fun t j => if t.getCell i j = Cell.marked then t.setCell i j Cell.empty else t) t)
          s (List.range im)).board.getD k Cell.empty = s.board.getD k Cell.empty := by
        rw [o5 k, if_neg hCim_false]
      rw [n5k]
      simp only [hpk]
      by_cases hs : s.board.getD k Cell.empty = Cell.marked
      · rw [if_pos ⟨j0, hj0, hk0, hs⟩,
          if_pos ⟨im, by omega, j0, hj0, hk0, hs⟩]
      · rw [if_neg (by rintro ⟨j, _, _, hmk⟩; exact hs hmk),
          if_neg (by rintro ⟨i, _, j, _, _, hmk⟩; exact hs hmk)]
    · have hinner_false : ¬(∃ j, j < s.cols ∧ k = im * s.cols + j ∧
          (List.foldl
            (fun t i => (List.range s.cols).foldl
              (fun t j => if t.getCell i j = Cell.marked then t.setCell i j Cell.empty else t) t)
            s (List.range im)).board.getD k Cell.empty = Cell.marked) := by
        rintro ⟨j, hj, hk0, _⟩
        exact hk_row ⟨j, hj, hk0⟩
      rw [n5k, if_neg hinner_false, o5 k]
      by_cases hC : ∃ i, i < im ∧ ∃ j, j < s.cols ∧ k = i * s.cols + j ∧
          s.board.getD k Cell.empty = Cell.marked
      · obtain ⟨i, hi, j, hj, hkij, hmk⟩ := hC
        rw [if_pos ⟨i, hi, j, hj, hkij, hmk⟩,
          if_pos ⟨i, by omega, j, hj, hkij, hmk⟩]
      · rw [if_neg hC, if_neg ?_]
        rintro ⟨i, hi, j, hj, hkij, hmk⟩
        by_cases him : i = im
        · subst him
          exact hk_row ⟨j, hj, hkij⟩
        · exact hC ⟨i, by omega, j, hj, hkij, hmk⟩

theorem list_ext_getD (b1 b2 : List Cell) (hl : b1.length = b2.length)
    (h : ∀ k, b1.getD k Cell.empty = b2.getD k Cell.empty) : b1 = b2 := by
  apply List.ext_getElem hl
  intro n hn1 hn2
  have hh := h n
  rw [List.getD_eq_getElem?_getD, List.getD_eq_getElem?_getD,
    List.getElem?_eq_getElem hn1, List.getElem?_eq_getElem hn2] at hh
  simpa using hh

theorem clear_marks_restore (st s : DS) (h : MarksOnly st s)
    (hm : Cell.marked ∉ st.board) : clear_marks s = st := by
  obtain ⟨h1, h2, h3, h4, h5⟩ := h
  obtain ⟨c1, c2, c3, c4, c5⟩ := clear_outer_char s s.rows (clear_marks s) rfl
  have hmst : ∀ k, st.board.getD k Cell.empty ≠ Cell.marked := by
    intro k hk
    have hlt : k < st.board.length :=
      getD_lt_of_ne_default st.board k (by rw [hk]; intro hcontra; cases hcontra)
    rw [List.getD_eq_getElem?_getD, List.getElem?_eq_getElem hlt] at hk
    simp only [Option.getD_some] at hk
    exact hm (hk ▸ List.getElem_mem hlt)
  apply DomineeringState.ext_fields
  · rw [c1, h1]
  · rw [c2, h2]
  · apply list_ext_getD _ _ (by rw [c4, h4])
    intro k
    rw [c5 k]
    rcases h5 k with hsame | ⟨hempty, hmarked, hlt⟩
    · rw [if_neg]
      · exact hsame
      · rintro ⟨i, _, j, _, _, hmk⟩
        rw [hsame] at hmk
        exact hmst k hmk
    · have hcols_pos : 0 < s.cols := by
        rcases Nat.eq_zero_or_pos s.cols with h0 | h0
        · rw [← h1, ← h2, h0] at hlt; omega
        · exact h0
      have hklt : k < s.rows * s.cols := by rw [h1, h2]; exact hlt
      have hdiv : k / s.cols < s.rows := by
        refine Nat.div_lt_of_lt_mul ?_
        rw [Nat.mul_comm] at hklt
        exact hklt
      have hmod : k % s.cols < s.cols := Nat.mod_lt _ hcols_pos
      have hdecomp : k = (k / s.cols) * s.cols + k % s.cols := by
        rw [Nat.mul_comm]
        exact (Nat.div_add_mod k s.cols).symm
      rw [if_pos ⟨k / s.cols, hdiv, k % s.cols, hmod, hdecomp, hmarked⟩]
      exact hempty.symm
  · rw [c3, h3]

/-- Claim C5 (evaluation framework): `evaluate` is the weighted sum over the
ordered evaluator list — Home reserved pairs at +2, then Home open placements
at +1, a clear-marks pass, Away reserved pairs at -2, Away open placements at
-1, a final clear-marks pass — with all marking performed on the threaded
scratch copy.  The two clear-marks passes restore the scratch copy exactly to
the argument position (marks never leak past a clear-marks pass), and the
argument position itself is never modified — `evaluate` only reads it. -/
theorem c5_evaluation_framework (st : DS) (hm : Cell.marked ∉ st.board) :
    evaluate st =
      2 * (EvalHomeReserved st).1
      + (EvalHomeOpen (EvalHomeReserved st).2).1
      - 2 * (EvalAwayReserved (clear_marks (EvalHomeOpen (EvalHomeReserved st).2).2)).1
      - (EvalAwayOpen (EvalAwayReserved (clear_marks
          (EvalHomeOpen (EvalHomeReserved st).2).2)).2).1 ∧
    clear_marks (EvalHomeOpen (EvalHomeReserved st).2).2 = st ∧
    clear_marks (EvalAwayOpen (EvalAwayReserved (clear_marks
        (EvalHomeOpen (EvalHomeReserved st).2).2)).2).2 = st := by
  have hM2 : MarksOnly st (EvalHomeOpen (EvalHomeReserved st).2).2 :=
    EvalHomeOpen_marksOnly st _ (EvalHomeReserved_marksOnly st st (marksOnly_refl st))
  have h2 : clear_marks (EvalHomeOpen (EvalHomeReserved st).2).2 = st :=
    clear_marks_restore st _ hM2 hm
  have hM5 : MarksOnly st (EvalAwayOpen (EvalAwayReserved (clear_marks
      (EvalHomeOpen (EvalHomeReserved st).2).2)).2).2 := by
    rw [h2]
    exact EvalAwayOpen_marksOnly st _ (EvalAwayReserved_marksOnly st st (marksOnly_refl st))
  have h5 : clear_marks (EvalAwayOpen (EvalAwayReserved (clear_marks
      (EvalHomeOpen (EvalHomeReserved st).2).2)).2).2 = st :=
    clear_marks_restore st _ hM5 hm
  refine ⟨?_, h2, h5⟩
  unfold evaluate evaluators
  simp only [List.foldl_cons, List.foldl_nil, ClearMarksStage]
  ring

/-- Claim C5 witness: the pipeline at the concrete 3x2 board, with the
clear-marks passes restoring the board. -/
theorem c5_witness :
    Cell.marked ∉ exStBug.board ∧
    evaluate exStBug =
      2 * (EvalHomeReserved exStBug).1
      + (EvalHomeOpen (EvalHomeReserved exStBug).2).1
      - 2 * (EvalAwayReserved (clear_marks (EvalHomeOpen (EvalHomeReserved exStBug).2).2)).1
      - (EvalAwayOpen (EvalAwayReserved (clear_marks
          (EvalHomeOpen (EvalHomeReserved exStBug).2).2)).2).1 ∧
    clear_marks (EvalHomeOpen (EvalHomeReserved exStBug).2).2 = exStBug ∧
    clear_marks (EvalAwayOpen (EvalAwayReserved (clear_marks
        (EvalHomeOpen (EvalHomeReserved exStBug).2).2)).2).2 = exStBug :=
  ⟨by decide,
   (c5_evaluation_framework exStBug (by decide)).1,
   (c5_evaluation_framework exStBug (by decide)).2.1,
   (c5_evaluation_framework exStBug (by decide)).2.2⟩
